import Mathlib

/-!
# Verification of the ml_devops_tutorial explainability pipeline

Shallow embedding of the Titanic explainability notebook
(`src/hands-on/explainable_ML/explainable_titanic-Copy1.ipynb`) and the
breast-cancer notebooks, together with the design-level components the
specification describes (binding validation, engineered-to-raw feature
mapping, global/local explanation ranking).  The notebooks delegate those
components to external libraries (`sklearn_pandas.DataFrameMapper`,
`azureml.explain.model.tabular_explainer.TabularExplainer`), so where the
repository's own sources contain only the call sites, the component is
modelled from the specification and marked as such in its doc comment.
-/

namespace MLDevOps

/-! ## Data model: transformation bindings

From the notebook cell defining `transformations`: a binding associates a
list of raw column names with a transform or ordered sequence of transform
steps (imputer, scaler, one-hot encoder). -/

/-- A single preprocessing step, as appearing in the notebook's
`transformations` list (`SimpleImputer`, `StandardScaler`, `OneHotEncoder`). -/
inductive Step
  | imputeMedian
  | imputeConstant (fill : String)
  | scale
  | oneHot
  deriving DecidableEq, Repr

/-- A transformation binding: one or more raw column names together with the
ordered sequence of steps applied to them (a bare transform is a one-step
sequence). -/
structure Binding where
  cols : List String
  steps : List Step
  deriving DecidableEq, Repr

/-- A binding is one-to-many iff its step sequence contains a one-hot
encoding, which expands one raw column into one engineered column per
category. -/
def Binding.oneToMany (b : Binding) : Bool :=
  b.steps.any (fun s => s = Step.oneHot)

/-- The notebook's numeric feature list: `numeric_features = ["age", "fare"]`. -/
def numeric_features : List String := ["age", "fare"]

/-- The notebook's categorical feature list:
`categorical_features = ["embarked", "sex", "pclass"]`. -/
def categorical_features : List String := ["embarked", "sex", "pclass"]

/-- The label column of the Titanic run: `y = data["survived"].values`. -/
def labelColumn : String := "survived"

/-- The feature columns handed downstream, in the notebook's order:
`X = data[categorical_features + numeric_features]`. -/
def featureColumns : List String := categorical_features ++ numeric_features

/-- The notebook's `transformations` list: numeric columns get
median-imputation then scaling; `embarked` gets constant-imputation then
one-hot; `sex`+`pclass` get a direct one-hot. -/
def transformations : List Binding :=
  [ ⟨["age", "fare"], [Step.imputeMedian, Step.scale]⟩,
    ⟨["embarked"], [Step.imputeConstant "missing", Step.oneHot]⟩,
    ⟨["sex", "pclass"], [Step.oneHot]⟩ ]

/-- All raw columns referenced by a binding list, with multiplicity. -/
def referencedCols (bs : List Binding) : List String :=
  (bs.map Binding.cols).flatten

/-- Modelled from the spec: the configuration validation of the
transformation pipeline builder (spec 4.1) — missing from `src/`, which
delegates pipeline construction to `sklearn_pandas.DataFrameMapper`.  A
binding list is valid for a raw column set iff every raw column is
referenced by exactly one binding occurrence and no binding references a
column outside the raw set. -/
def validBindings (rawCols : List String) (bs : List Binding) : Bool :=
  rawCols.all (fun c => (referencedCols bs).count c = 1) &&
    (referencedCols bs).all (fun c => c ∈ rawCols)

/-- A fitted pipeline: the ordered binding list plus the trained
classifier's state (weights of the logistic model), immutable once fit. -/
structure FittedPipeline where
  bindings : List Binding
  weights : List (String × ℚ)
  intercept : ℚ
  deriving DecidableEq, Repr

/-- Modelled from the spec: pipeline construction (spec 4.1, 7) — the
builder validates the binding list against the raw columns and fails fast
with a configuration error before any fitting; only a valid configuration
reaches the fitting stage (modelled by constructing the fitted value). -/
def buildPipeline (rawCols : List String) (bs : List Binding)
    (fit : List Binding → FittedPipeline) : Except String FittedPipeline :=
  if validBindings rawCols bs then Except.ok (fit bs)
  else Except.error "configuration error: raw columns and bindings do not correspond one-to-one"

/-! ## Engineered-to-raw feature mapping (spec 4.2) -/

/-- The engineered columns a binding produces for one of its raw columns,
given the per-column category count `cc` observed in the data: a one-to-many
binding produces one indicator column per category, a one-to-one binding
passes the column through. -/
def engColsFor (cc : String → Nat) (b : Binding) (c : String) : List String :=
  if b.oneToMany then (List.range (cc c)).map (fun i => c ++ "=" ++ toString i)
  else [c]

/-- Modelled from the spec: the explainer adapter's engineered-to-raw
feature mapping (spec 4.2) — missing from `src/`, which passes
`transformations` to `TabularExplainer`.  For each raw column (in binding
order) it lists the engineered columns that column produced. -/
def rawFeatureMap (cc : String → Nat) (bs : List Binding) :
    List (String × List String) :=
  (bs.map (fun b => b.cols.map (fun c => (c, engColsFor cc b c)))).flatten

/-- All engineered columns a binding list produces, in order. -/
def engineeredCols (cc : String → Nat) (bs : List Binding) : List String :=
  ((rawFeatureMap cc bs).map Prod.snd).flatten

/-- Modelled from the spec: aggregation of per-engineered-column importance
back to raw columns (spec 4.2) — each raw column's importance is the sum of
the importances of the engineered columns it produced. -/
def rawImportances (imp : String → ℚ) (cc : String → Nat) (bs : List Binding) :
    List (String × ℚ) :=
  (rawFeatureMap cc bs).map (fun p => (p.1, (p.2.map imp).sum))

/-- Modelled from the spec: the per-binding aggregation rule exactly as the
spec's algorithm states it (spec 4.2) — "if its transform is declared
one-to-many, sum the attribution across all engineered columns it produced;
if one-to-one, pass through unchanged". -/
def specAggregate (imp : String → ℚ) (cc : String → Nat) (b : Binding)
    (c : String) : ℚ :=
  if b.oneToMany then ((engColsFor cc b c).map imp).sum else imp c

/-- Category counts of the Titanic data after fill, as the notebook
documents them: `embarked` has 3 categories, `sex` 2, `pclass` 3; numeric
columns pass through. -/
def titanicCatCount : String → Nat :=
  fun c => if c = "embarked" then 3 else if c = "sex" then 2 else
    if c = "pclass" then 3 else 1

/-- The binding list of the spec's validation example: it covers
`{age, embarked, sex, pclass}` but is missing column `fare`. -/
def bindingsMissingFare : List Binding :=
  [ ⟨["age"], [Step.imputeMedian, Step.scale]⟩,
    ⟨["embarked"], [Step.imputeConstant "missing", Step.oneHot]⟩,
    ⟨["sex", "pclass"], [Step.oneHot]⟩ ]

/-- A concrete fitting stage used to instantiate `buildPipeline`. -/
def titanicFit : List Binding → FittedPipeline :=
  fun bs => ⟨bs, [], 0⟩

/-- The first components of the engineered-to-raw mapping are exactly the
columns referenced by the bindings, in order. -/
theorem rawFeatureMap_fst (cc : String → Nat) (bs : List Binding) :
    (rawFeatureMap cc bs).map Prod.fst = referencedCols bs := by
  induction bs with
  | nil => rfl
  | cons b bs ih =>
      simp only [rawFeatureMap, referencedCols, List.map_cons, List.flatten_cons,
        List.map_append, List.map_map] at *
      rw [ih]
      congr 1
      exact List.map_id _

/-- C1: for every binding list in which some raw feature column is
referenced by zero bindings or by more than one binding occurrence,
pipeline construction fails with a configuration error — the builder
returns the error without ever invoking the fitting stage, so no model
fitting occurs. -/
theorem claim1_invalid_bindings_fail_fast (rawCols : List String)
    (bs : List Binding) (fit : List Binding → FittedPipeline)
    (h : ∃ c ∈ rawCols, (referencedCols bs).count c ≠ 1) :
    buildPipeline rawCols bs fit =
      Except.error
        "configuration error: raw columns and bindings do not correspond one-to-one" := by
  obtain ⟨c, hc, hne⟩ := h
  have hv : validBindings rawCols bs = false := by
    apply Bool.and_eq_false_iff.mpr
    left
    apply List.all_eq_false.mpr
    exact ⟨c, hc, by simpa using hne⟩
  simp [buildPipeline, hv]

/-- C1 witness: the spec's concrete example — a binding list covering
`{age, embarked, sex, pclass}` but missing column `fare` is rejected with a
configuration error before fitting. -/
theorem claim1_invalid_bindings_fail_fast_witness :
    buildPipeline featureColumns bindingsMissingFare titanicFit =
      Except.error
        "configuration error: raw columns and bindings do not correspond one-to-one" :=
  claim1_invalid_bindings_fail_fast featureColumns bindingsMissingFare titanicFit
    ⟨"fare", by decide, by decide⟩

/-- C2: for every valid binding list over a duplicate-free raw column set,
the engineered-to-raw feature mapping lists each raw column exactly once
(its first components are a permutation of the raw columns, without
repetition), and its per-raw-column engineered column lists concatenate to
the full engineered column sequence. -/
theorem claim2_mapping_partitions (rawCols : List String) (bs : List Binding)
    (cc : String → Nat) (hnd : rawCols.Nodup)
    (hv : validBindings rawCols bs = true) :
    ((rawFeatureMap cc bs).map Prod.fst).Perm rawCols ∧
    ((rawFeatureMap cc bs).map Prod.fst).Nodup ∧
    ((rawFeatureMap cc bs).map Prod.snd).flatten = engineeredCols cc bs := by
  have hv1 : ∀ c ∈ rawCols, (referencedCols bs).count c = 1 := by
    intro c hc
    have := (Bool.and_eq_true _ _).mp hv |>.1
    simpa using List.all_eq_true.mp this c hc
  have hv2 : ∀ c ∈ referencedCols bs, c ∈ rawCols := by
    intro c hc
    have := (Bool.and_eq_true _ _).mp hv |>.2
    simpa using List.all_eq_true.mp this c hc
  have hperm : (referencedCols bs).Perm rawCols := by
    apply List.perm_iff_count.mpr
    intro a
    by_cases ha : a ∈ rawCols
    · rw [hv1 a ha, List.count_eq_one_of_mem hnd ha]
    · rw [List.count_eq_zero.mpr ha, List.count_eq_zero.mpr
        (fun hmem => ha (hv2 a hmem))]
  refine ⟨?_, ?_, rfl⟩
  · rw [rawFeatureMap_fst]; exact hperm
  · rw [rawFeatureMap_fst]; exact hperm.symm.nodup_iff.mp hnd

/-- C2 witness: the Titanic binding list is valid for the notebook's feature
columns, and its engineered-to-raw mapping lists each of the five raw
columns exactly once. -/
theorem claim2_mapping_partitions_witness :
    ((rawFeatureMap titanicCatCount transformations).map Prod.fst).Perm
        featureColumns ∧
    ((rawFeatureMap titanicCatCount transformations).map Prod.fst).Nodup ∧
    ((rawFeatureMap titanicCatCount transformations).map Prod.snd).flatten =
      engineeredCols titanicCatCount transformations :=
  claim2_mapping_partitions featureColumns transformations titanicCatCount
    (by decide) (by decide)

/-- C6: for the concrete Titanic binding list, with `embarked` one-hot
expanding to 3 engineered columns and `sex`+`pclass` to 5, the mapping
collapses the 10 engineered columns (2 + 3 + 5) back to exactly 5
raw-feature importance values, one per raw column. -/
theorem claim6_titanic_collapse :
    (engineeredCols titanicCatCount transformations).length = 10 ∧
    ((rawFeatureMap titanicCatCount transformations).map
        (fun p => p.2.length)) = [1, 1, 3, 2, 3] ∧
    ∀ imp : String → ℚ,
      (rawImportances imp titanicCatCount transformations).map Prod.fst =
        ["age", "fare", "embarked", "sex", "pclass"] ∧
      (rawImportances imp titanicCatCount transformations).length = 5 := by
  refine ⟨by decide, by decide, ?_⟩
  intro imp
  exact ⟨rfl, rfl⟩

/-- A sample importance assignment used to instantiate aggregation
theorems on concrete inputs. -/
def sampleImp : String → ℚ := fun s => (s.length : ℚ)

/-- C4: the explainer's aggregation (sum of the per-engineered-column
importances over the engineered columns a binding produced for a raw
column) agrees with the spec's branch algorithm: computing `rawImportances`
by summation coincides with applying `specAggregate` per binding and
column, a one-to-many binding's raw importance is the sum over its
engineered columns, and a one-to-one binding passes the single engineered
importance through unchanged. -/
theorem claim4_aggregation_sum (imp : String → ℚ) (cc : String → Nat)
    (bs : List Binding) (b : Binding) (c : String) :
    rawImportances imp cc bs =
      (bs.map (fun bb => bb.cols.map
        (fun cl => (cl, specAggregate imp cc bb cl)))).flatten ∧
    specAggregate imp cc b c = ((engColsFor cc b c).map imp).sum ∧
    (b.oneToMany = false → specAggregate imp cc b c = imp c ∧
      engColsFor cc b c = [c]) := by
  have key : ∀ (bb : Binding) (cl : String),
      ((engColsFor cc bb cl).map imp).sum = specAggregate imp cc bb cl := by
    intro bb cl
    by_cases h : bb.oneToMany
    · simp [specAggregate, h]
    · simp [specAggregate, engColsFor, h]
  refine ⟨?_, (key b c).symm, ?_⟩
  · simp only [rawImportances, rawFeatureMap, List.map_flatten, List.map_map]
    congr 1
    apply List.map_congr_left
    intro bb _
    simp only [Function.comp_apply, List.map_map]
    apply List.map_congr_left
    intro cl _
    simp [key bb cl]
  · intro h
    exact ⟨by simp [specAggregate, h], by simp [engColsFor, h]⟩

/-- C4 witness: for the Titanic numeric binding (one-to-one on `age`) the
aggregation passes the engineered importance through unchanged. -/
theorem claim4_aggregation_sum_witness :
    specAggregate sampleImp titanicCatCount
        ⟨["age", "fare"], [Step.imputeMedian, Step.scale]⟩ "age" =
        sampleImp "age" ∧
    engColsFor titanicCatCount
        ⟨["age", "fare"], [Step.imputeMedian, Step.scale]⟩ "age" = ["age"] :=
  (claim4_aggregation_sum sampleImp titanicCatCount transformations
    ⟨["age", "fare"], [Step.imputeMedian, Step.scale]⟩ "age").2.2 (by decide)

/-! ## Global explanation ranking (spec 4.3)

Modelled from the spec: the ranked global importance accessors
(`get_ranked_global_values`, `get_ranked_global_names`,
`global_importance_rank`) live in the explainer library; the notebooks only
call them.  The ranking sorts raw features by descending absolute
importance, breaking ties by the stable original column order. -/

/-- The ranking order on indexed (feature, importance) entries: an entry
comes first if its absolute importance is strictly larger, or equal with a
smaller (earlier) original index — descending absolute value with ties
broken by stable original order. -/
def rankRel (a b : ℕ × (String × ℚ)) : Prop :=
  |b.2.2| < |a.2.2| ∨ (|a.2.2| = |b.2.2| ∧ a.1 ≤ b.1)

instance : DecidableRel rankRel := fun a b => by
  unfold rankRel; infer_instance

instance : IsTotal (ℕ × (String × ℚ)) rankRel := by
  constructor
  intro a b
  rcases lt_trichotomy |a.2.2| |b.2.2| with h | h | h
  · exact Or.inr (Or.inl h)
  · rcases Nat.le_total a.1 b.1 with hle | hle
    · exact Or.inl (Or.inr ⟨h, hle⟩)
    · exact Or.inr (Or.inr ⟨h.symm, hle⟩)
  · exact Or.inl (Or.inl h)

instance : IsTrans (ℕ × (String × ℚ)) rankRel := by
  constructor
  intro a b c hab hbc
  rcases hab with h1 | ⟨e1, i1⟩ <;> rcases hbc with h2 | ⟨e2, i2⟩
  · exact Or.inl (h2.trans h1)
  · exact Or.inl (by rw [← e2]; exact h1)
  · exact Or.inl (by rw [e1]; exact h2)
  · exact Or.inr ⟨e1.trans e2, i1.trans i2⟩

/-- Modelled from the spec: the global ranking permutes the indexed
importance entries into descending-absolute-value order with stable
tie-breaking (spec 4.3). -/
def sortedEnum (fv : List (String × ℚ)) : List (ℕ × (String × ℚ)) :=
  List.insertionSort rankRel fv.enum

/-- Ranked (name, value) pairs of the global explanation. -/
def rankedGlobal (fv : List (String × ℚ)) : List (String × ℚ) :=
  (sortedEnum fv).map Prod.snd

/-- The accessor `get_ranked_global_names`: feature names in ranked order. -/
def get_ranked_global_names (fv : List (String × ℚ)) : List String :=
  (sortedEnum fv).map (fun p => p.2.1)

/-- The accessor `get_ranked_global_values`: importance values in ranked order. -/
def get_ranked_global_values (fv : List (String × ℚ)) : List ℚ :=
  (sortedEnum fv).map (fun p => p.2.2)

/-- The accessor `global_importance_rank`: the original column indices of the features in
ranked order. -/
def global_importance_rank (fv : List (String × ℚ)) : List ℕ :=
  (sortedEnum fv).map Prod.fst

/-- C3: for every (feature, importance) assignment, the global explanation's
ranked (name, value) sequence is a permutation of the feature assignment,
sorted in descending order of absolute importance with ties broken by the
stable original column order, and the parallel rank index recovers each
ranked entry from its original position. -/
theorem claim3_global_ranking (fv : List (String × ℚ)) :
    (rankedGlobal fv).Perm fv ∧
    List.Pairwise rankRel (sortedEnum fv) ∧
    (rankedGlobal fv).Pairwise (fun a b => |b.2| ≤ |a.2|) ∧
    (∀ q ∈ sortedEnum fv, fv[q.1]? = some q.2) ∧
    (get_ranked_global_names fv).zip (get_ranked_global_values fv) =
      rankedGlobal fv ∧
    global_importance_rank fv = (sortedEnum fv).map Prod.fst := by
  have hperm : (sortedEnum fv).Perm fv.enum :=
    List.perm_insertionSort rankRel fv.enum
  have hsorted : List.Pairwise rankRel (sortedEnum fv) :=
    List.sorted_insertionSort rankRel fv.enum
  refine ⟨?_, hsorted, ?_, ?_, ?_, rfl⟩
  · have := hperm.map Prod.snd
    rwa [List.enum_map_snd] at this
  · refine List.Pairwise.map Prod.snd ?_ hsorted
    intro a b hab
    rcases hab with h | ⟨h, _⟩
    · exact le_of_lt h
    · exact le_of_eq h.symm
  · intro q hq
    have hmem : q ∈ fv.enum := hperm.mem_iff.mp hq
    exact List.mem_enum_iff_getElem?.mp hmem
  · simp only [get_ranked_global_names, get_ranked_global_values,
      rankedGlobal, List.zip_map']

/-- A sample importance assignment for the ranking witness. -/
def fvSample : List (String × ℚ) := [("age", 2), ("fare", -3)]

/-- C3 witness: in the sample assignment, the top-ranked entry (`fare`,
absolute importance 3) carries original index 1, and the rank index indeed
recovers it from the original list. -/
theorem claim3_global_ranking_witness :
    fvSample[(1 : ℕ)]? = some ("fare", -3) :=
  (claim3_global_ranking fvSample).2.2.2.1 (1, ("fare", -3)) (by decide)

/-! ## Local explanation and determinism (spec 4.3, 4.4)

Modelled from the spec: `explain_local` / `explain_global` live in the
explainer library; the notebook only calls them.  They are modelled as
pure functions of the fitted pipeline (whose trained state carries the
estimator's weights, fixed by the random seed at fit time), the category
counts, and the evaluation rows — each explanation call is stateless given
the fitted pipeline and input rows. -/

/-- Look up a column's value in an association list, with a default. -/
def lookupD (x : List (String × ℚ)) (c : String) (d : ℚ) : ℚ :=
  ((x.find? (fun p => p.1 == c)).map Prod.snd).getD d

/-- The decision score of the trained logistic model on an engineered row. -/
def dotScore (p : FittedPipeline) (x : List (String × ℚ)) : ℚ :=
  (p.weights.map (fun w => w.2 * lookupD x w.1 0)).sum + p.intercept

/-- The model's predicted class for a row (binary logistic decision). -/
def predictClass (p : FittedPipeline) (x : List (String × ℚ)) : ℕ :=
  if 0 ≤ dotScore p x then 1 else 0

/-- Modelled from the spec: signed per-raw-column contributions of one row
toward class `cls`, aggregated from per-engineered-column contributions
(spec 4.2, 4.4). -/
def localContrib (p : FittedPipeline) (cc : String → Nat)
    (x : List (String × ℚ)) (cls : ℕ) : List (String × ℚ) :=
  rawImportances
    (fun e => (if cls = 1 then (1 : ℚ) else -1) * lookupD p.weights e 0 * lookupD x e 0)
    cc p.bindings

/-- Modelled from the spec: local explanation of one row — takes the target
class index, defaulting to the model's predicted class for that row, and
returns the class used together with the ranked signed contributions
(spec 4.4). -/
def explain_local (p : FittedPipeline) (cc : String → Nat)
    (x : List (String × ℚ)) (cls : Option ℕ) : ℕ × List (String × ℚ) :=
  let c := cls.getD (predictClass p x)
  (c, rankedGlobal (localContrib p cc x c))

/-- Modelled from the spec: global explanation over an evaluation subset —
mean absolute per-engineered-column contribution, aggregated to raw columns
and ranked (spec 4.3). -/
def explain_global (p : FittedPipeline) (cc : String → Nat)
    (rows : List (List (String × ℚ))) : List (String × ℚ) :=
  rankedGlobal (rawImportances
    (fun e => ((rows.map (fun x => |lookupD p.weights e 0 * lookupD x e 0|)).sum)
      / rows.length)
    cc p.bindings)

/-- C5: explanation computation is deterministic — with the fitted pipeline
(hence the estimator's seed-fixed trained state) held fixed, two invocations
of local explanation on the same row and class return identical output, and
two invocations of global explanation on the same evaluation subset return
identical output. -/
theorem claim5_determinism (p q : FittedPipeline) (cc cd : String → Nat)
    (x y : List (String × ℚ)) (cls cls2 : Option ℕ)
    (rows rows2 : List (List (String × ℚ)))
    (hp : p = q) (hcc : cc = cd) (hx : x = y) (hcls : cls = cls2)
    (hrows : rows = rows2) :
    explain_local p cc x cls = explain_local q cd y cls2 ∧
    explain_global p cc rows = explain_global q cd rows2 := by
  subst hp hcc hx hcls hrows
  exact ⟨rfl, rfl⟩

/-- A concrete fitted pipeline for the determinism witness. -/
def pSample : FittedPipeline :=
  ⟨transformations, [("age", 1), ("embarked=0", 2)], 1 / 2⟩

/-- A concrete engineered row for the explanation witnesses. -/
def xSample : List (String × ℚ) := [("age", 3), ("embarked=0", 1)]

/-- C5 witness: repeating the identical local and global explanation
requests on a concrete pipeline, row and evaluation subset yields identical
output. -/
theorem claim5_determinism_witness :
    explain_local pSample titanicCatCount xSample none =
      explain_local pSample titanicCatCount xSample none ∧
    explain_global pSample titanicCatCount [xSample] =
      explain_global pSample titanicCatCount [xSample] :=
  claim5_determinism pSample pSample titanicCatCount titanicCatCount
    xSample xSample none none [xSample] [xSample] rfl rfl rfl rfl rfl

/-- C8: local explanation accepts a row plus a target class index; an
arbitrary class index is honoured (the returned class and contributions are
those of the requested class), and an omitted class index defaults to the
model's predicted class for that row. -/
theorem claim8_local_interface (p : FittedPipeline) (cc : String → Nat)
    (x : List (String × ℚ)) (c : ℕ) :
    (explain_local p cc x (some c)).1 = c ∧
    (explain_local p cc x (some c)).2 = rankedGlobal (localContrib p cc x c) ∧
    explain_local p cc x none = explain_local p cc x (some (predictClass p x)) :=
  ⟨rfl, rfl, rfl⟩

/-! ## Raw table, column selection and split

From the notebook: `X = data[categorical_features + numeric_features]`,
`y = data["survived"].values`, then `train_test_split(X, y, ...)`.  A table
is modelled column-oriented as an association list from column names to
value columns; the split partitions rows per column (the split's row
shuffling is immaterial to which columns flow downstream). -/

/-- Values of a named column of a table (empty when absent). -/
def colValues {α : Type} (t : List (String × List α)) (c : String) : List α :=
  ((t.find? (fun p => p.1 == c)).map Prod.snd).getD []

/-- Column selection, `data[cols]`: the selected table has exactly the
requested columns, in order. -/
def selectCols {α : Type} (cols : List String) (t : List (String × List α)) :
    List (String × List α) :=
  cols.map (fun c => (c, colValues t c))

/-- The train/test split of a table at row position `k`: per column, the
first `k` rows go to one part and the remainder to the other. -/
def splitCols {α : Type} (k : ℕ) (t : List (String × List α)) :
    List (String × List α) × List (String × List α) :=
  (t.map (fun p => (p.1, p.2.take k)), t.map (fun p => (p.1, p.2.drop k)))

/-- C7: the label column `survived` is excluded from the feature set passed
downstream — for every raw table, the feature matrix
`X = data[categorical_features + numeric_features]` and both parts of the
split carry exactly the declared categorical and numeric raw columns, a
list that does not contain the label column. -/
theorem claim7_label_excluded {α : Type} (t : List (String × List α)) (k : ℕ) :
    labelColumn ∉ featureColumns ∧
    featureColumns = categorical_features ++ numeric_features ∧
    (selectCols featureColumns t).map Prod.fst = featureColumns ∧
    ((splitCols k (selectCols featureColumns t)).1.map Prod.fst =
        featureColumns ∧
      (splitCols k (selectCols featureColumns t)).2.map Prod.fst =
        featureColumns) := by
  refine ⟨by decide, rfl, ?_, ?_, ?_⟩ <;>
    simp [selectCols, splitCols, List.map_map, Function.comp_def]

/-! ## Ingestion fill: `data.fillna(ffill)` then `data.fillna(bfill)`

From the notebook's ingestion cell.  A raw column is a list of optional
values; forward fill replaces each missing entry by the closest earlier
non-missing value (if any), backward fill by the closest later one. -/

/-- Forward fill with the most recent non-missing value carried in `prev`. -/
def ffillAux {α : Type} : Option α → List (Option α) → List (Option α)
  | _, [] => []
  | _, some v :: rest => some v :: ffillAux (some v) rest
  | prev, none :: rest => prev :: ffillAux prev rest

/-- The operation `fillna(method="ffill")` on one column. -/
def ffill {α : Type} (xs : List (Option α)) : List (Option α) :=
  ffillAux none xs

/-- The operation `fillna(method="bfill")` on one column: forward fill of the reversed
column. -/
def bfill {α : Type} (xs : List (Option α)) : List (Option α) :=
  (ffillAux none xs.reverse).reverse

/-- The imputer `SimpleImputer`: replace each missing entry of a column by the fill
value (the fitted median, or the constant sentinel). -/
def imputeFill {α : Type} (d : α) (l : List (Option α)) : List α :=
  l.map (fun o => o.getD d)

/-- The non-missing values of a column, in order. -/
def presentValues {α : Type} (l : List (Option α)) : List α :=
  l.filterMap id

/-- Forward fill started from a non-missing carry value leaves no missing
entry. -/
theorem ffillAux_allSome {α : Type} (v : α) (xs : List (Option α)) :
    ∀ y ∈ ffillAux (some v) xs, y.isSome := by
  induction xs generalizing v with
  | nil => intro y hy; cases hy
  | cons a rest ih =>
      cases a with
      | some w =>
          intro y hy
          rcases List.mem_cons.mp hy with h | h
          · subst h; rfl
          · exact ih w y h
      | none =>
          intro y hy
          rcases List.mem_cons.mp hy with h | h
          · subst h; rfl
          · exact ih v y h

/-- Forward fill preserves the column length. -/
theorem ffillAux_length {α : Type} (prev : Option α) (xs : List (Option α)) :
    (ffillAux prev xs).length = xs.length := by
  induction xs generalizing prev with
  | nil => rfl
  | cons a rest ih => cases a <;> simp [ffillAux, ih]

/-- A nonempty column without missing entries has a non-missing last entry. -/
theorem getLast?_of_allSome {α : Type} (l : List (Option α)) (hne : l ≠ [])
    (hall : ∀ y ∈ l, y.isSome) : ∃ v : α, l.getLast? = some (some v) := by
  have hmem : l.getLast hne ∈ l := List.getLast_mem hne
  have hsome := hall _ hmem
  obtain ⟨v, hv⟩ := Option.isSome_iff_exists.mp hsome
  exact ⟨v, by rw [List.getLast?_eq_getLast l hne, hv]⟩

/-- After forward fill of a column containing at least one non-missing
value, the last entry is non-missing. -/
theorem ffillAux_getLast?_isSome {α : Type} (xs : List (Option α))
    (prev : Option α) (h : ∃ x ∈ xs, x.isSome) :
    ∃ v : α, (ffillAux prev xs).getLast? = some (some v) := by
  induction xs generalizing prev with
  | nil => simp at h
  | cons a rest ih =>
      by_cases hr : ∃ x ∈ rest, x.isSome
      · cases a with
        | some w =>
            obtain ⟨v, hv⟩ := ih (some w) hr
            have hne : ffillAux (some w) rest ≠ [] := by
              intro he
              rw [he] at hv
              cases hv
            obtain ⟨c, t, hct⟩ := List.exists_cons_of_ne_nil hne
            refine ⟨v, ?_⟩
            show (some w :: ffillAux (some w) rest).getLast? = some (some v)
            rw [hct, List.getLast?_cons_cons, ← hct]
            exact hv
        | none =>
            obtain ⟨v, hv⟩ := ih prev hr
            have hne : ffillAux prev rest ≠ [] := by
              intro he
              rw [he] at hv
              cases hv
            obtain ⟨c, t, hct⟩ := List.exists_cons_of_ne_nil hne
            refine ⟨v, ?_⟩
            show (prev :: ffillAux prev rest).getLast? = some (some v)
            rw [hct, List.getLast?_cons_cons, ← hct]
            exact hv
      · obtain ⟨x, hx, hxs⟩ := h
        rcases List.mem_cons.mp hx with hxa | hxrest
        · subst hxa
          obtain ⟨w, hw⟩ := Option.isSome_iff_exists.mp hxs
          subst hw
          cases rest with
          | nil => exact ⟨w, rfl⟩
          | cons b t =>
              have hne : ffillAux (some w) (b :: t) ≠ [] := by
                intro he
                have := ffillAux_length (α := α) (some w) (b :: t)
                rw [he] at this
                simp at this
              obtain ⟨v, hv⟩ := getLast?_of_allSome _ hne (ffillAux_allSome w (b :: t))
              refine ⟨v, ?_⟩
              show (some w :: ffillAux (some w) (b :: t)).getLast? = some (some v)
              obtain ⟨c, tl, hct⟩ := List.exists_cons_of_ne_nil hne
              rw [hct, List.getLast?_cons_cons, ← hct]
              exact hv
        · exact absurd ⟨x, hxrest, hxs⟩ hr

/-- After forward fill followed by backward fill, a column containing at
least one non-missing value has no missing entry at all. -/
theorem ffill_bfill_allSome {α : Type} (xs : List (Option α))
    (h : ∃ x ∈ xs, x.isSome) : ∀ y ∈ bfill (ffill xs), y.isSome := by
  intro y hy
  have hy1 : y ∈ ffillAux none (ffill xs).reverse := by
    simpa [bfill] using hy
  obtain ⟨v, hv⟩ := ffillAux_getLast?_isSome xs none h
  have hh : (ffill xs).reverse.head? = some (some v) := by
    rw [List.head?_reverse]
    exact hv
  obtain ⟨t, ht⟩ : ∃ t, (ffill xs).reverse = some v :: t := by
    cases e : (ffill xs).reverse with
    | nil => rw [e] at hh; cases hh
    | cons a t =>
        rw [e] at hh
        exact ⟨t, by rw [show a = some v from by injection hh]⟩
  rw [ht] at hy1
  simp only [ffillAux] at hy1
  rcases List.mem_cons.mp hy1 with h1 | h1
  · subst h1; rfl
  · exact ffillAux_allSome v t y h1

/-- Imputation on a column without missing entries returns exactly the
column's values, whatever the fill constant is. -/
theorem imputeFill_of_allSome {α : Type} (d : α) (l : List (Option α))
    (hall : ∀ y ∈ l, y.isSome) : imputeFill d l = presentValues l := by
  induction l with
  | nil => rfl
  | cons o t ih =>
      obtain ⟨v, hv⟩ := Option.isSome_iff_exists.mp (hall o (List.mem_cons_self o t))
      subst hv
      simp only [imputeFill, presentValues, List.map_cons, List.filterMap_cons]
      exact congrArg (v :: ·) (ih (fun y hy => hall y (List.mem_cons_of_mem _ hy)))

/-- C9: after ingestion applies forward fill then backward fill, every
column with at least one non-missing value has no missing entries; on any
part of such a column handed to fitting (a sublist of its rows), both the
median imputer and the constant-sentinel imputer act as the identity: they
return exactly the present values, independently of the fill constant. -/
theorem claim9_fill_makes_imputers_identity {α : Type} (col : List (Option α))
    (h : ∃ x ∈ col, x.isSome) :
    (bfill (ffill col)).all Option.isSome = true ∧
    (∀ s : List (Option α), s.Sublist (bfill (ffill col)) → ∀ d d2 : α,
      imputeFill d s = presentValues s ∧ imputeFill d s = imputeFill d2 s) := by
  have hall := ffill_bfill_allSome col h
  constructor
  · exact List.all_eq_true.mpr (fun y hy => hall y hy)
  · intro s hs d d2
    have halls : ∀ y ∈ s, y.isSome := fun y hy => hall y (hs.mem hy)
    rw [imputeFill_of_allSome d s halls, imputeFill_of_allSome d2 s halls]
    exact ⟨rfl, rfl⟩

/-- A concrete raw column for the fill witness. -/
def colSample : List (Option ℚ) := [none, some 3, none, none, some 5, none]

/-- C9 witness: on a concrete column with missing entries, forward then
backward fill leaves no missing entry, and the median imputer applied
afterwards is the identity. -/
theorem claim9_fill_makes_imputers_identity_witness :
    (bfill (ffill colSample)).all Option.isSome = true ∧
    imputeFill (4 : ℚ) (bfill (ffill colSample)) =
      presentValues (bfill (ffill colSample)) :=
  ⟨(claim9_fill_makes_imputers_identity colSample
      ⟨some 3, by decide, rfl⟩).1,
   ((claim9_fill_makes_imputers_identity colSample
      ⟨some 3, by decide, rfl⟩).2 _ (List.Sublist.refl _) 4 4).1⟩

/-! ## Predicted-label indexing into the per-class local explanation

From the notebook: `prediction_value = clf.predict(x_test)[0]` and
`local_explanation.get_ranked_local_values()[prediction_value]`.  The
classifier's class list is the sorted deduplication of the training labels
(as `numpy.unique` produces it), prediction returns one of those classes,
and the local explanation carries one ranked list per class. -/

/-- The trained classifier's class list: sorted unique training labels. -/
def trainedClasses (ys : List ℕ) : List ℕ :=
  List.insertionSort (fun a b => a ≤ b) ys.dedup

/-- The predicted label of a row, for a binary decision score: the larger
class when the score is nonnegative, the smaller one otherwise; always one
of the trained classes. -/
def predictLabel (cls : List ℕ) (score : ℚ) : ℕ :=
  if 0 ≤ score then cls.getLast?.getD 0 else cls.head?.getD 0

/-- The local explanation's per-class ranked contribution lists: one list
per trained class (`get_ranked_local_values`). -/
def rankedLocalLists (p : FittedPipeline) (cc : String → Nat)
    (x : List (String × ℚ)) (cls : List ℕ) : List (List (String × ℚ)) :=
  cls.map (fun c => rankedGlobal (localContrib p cc x c))

/-- C10: when the training labels are the Titanic `survived` values (all in
{0, 1}, with both classes present), the trained class list is `[0, 1]`, the
predicted label lies in {0, 1}, and using it directly as an index into the
per-class ranked local importance lists is always in bounds. -/
theorem claim10_prediction_index_in_bounds (ys : List ℕ) (score : ℚ)
    (p : FittedPipeline) (cc : String → Nat) (x : List (String × ℚ))
    (h01 : ∀ l ∈ ys, l = 0 ∨ l = 1) (h0 : 0 ∈ ys) (h1 : 1 ∈ ys) :
    trainedClasses ys = [0, 1] ∧
    (predictLabel (trainedClasses ys) score = 0 ∨
      predictLabel (trainedClasses ys) score = 1) ∧
    predictLabel (trainedClasses ys) score <
      (rankedLocalLists p cc x (trainedClasses ys)).length ∧
    (rankedLocalLists p cc x
        (trainedClasses ys))[predictLabel (trainedClasses ys) score]?.isSome
      = true := by
  have hcls : trainedClasses ys = [0, 1] := by
    have hd : ys.dedup.Perm [0, 1] := by
      apply List.perm_iff_count.mpr
      intro a
      rcases Decidable.em (a = 0) with ha0 | ha0
      · subst ha0
        rw [List.count_eq_one_of_mem (List.nodup_dedup ys)
          (List.mem_dedup.mpr h0)]
        decide
      · rcases Decidable.em (a = 1) with ha1 | ha1
        · subst ha1
          rw [List.count_eq_one_of_mem (List.nodup_dedup ys)
            (List.mem_dedup.mpr h1)]
          decide
        · rw [List.count_eq_zero.mpr
            (fun hmem => by
              rcases h01 a (List.mem_dedup.mp hmem) with h | h
              · exact ha0 h
              · exact ha1 h),
            List.count_eq_zero.mpr (by simp [ha0, ha1])]
    have hperm : (trainedClasses ys).Perm [0, 1] :=
      (List.perm_insertionSort _ ys.dedup).trans hd
    have hsorted : List.Sorted (fun a b => a ≤ b) (trainedClasses ys) :=
      List.sorted_insertionSort _ ys.dedup
    exact List.eq_of_perm_of_sorted hperm hsorted (by decide)
  rw [hcls]
  have hpl : predictLabel [0, 1] score = 0 ∨ predictLabel [0, 1] score = 1 := by
    unfold predictLabel
    rcases Decidable.em (0 ≤ score) with h | h
    · right; simp [h]
    · left; simp [h]
  have hlen : (rankedLocalLists p cc x [0, 1]).length = 2 := by
    simp [rankedLocalLists]
  have hlt : predictLabel [0, 1] score <
      (rankedLocalLists p cc x [0, 1]).length := by
    rw [hlen]
    rcases hpl with h | h <;> rw [h] <;> decide
  refine ⟨rfl, hpl, hlt, ?_⟩
  simp [List.getElem?_eq_getElem hlt]

/-- C10 witness: on concrete training labels containing both classes, with
a concrete pipeline, row and score, the predicted-label lookup into the
per-class ranked lists succeeds. -/
theorem claim10_prediction_index_in_bounds_witness :
    trainedClasses [0, 1, 1, 0] = [0, 1] ∧
    (predictLabel (trainedClasses [0, 1, 1, 0]) 1 = 0 ∨
      predictLabel (trainedClasses [0, 1, 1, 0]) 1 = 1) ∧
    predictLabel (trainedClasses [0, 1, 1, 0]) 1 <
      (rankedLocalLists pSample titanicCatCount xSample
        (trainedClasses [0, 1, 1, 0])).length ∧
    (rankedLocalLists pSample titanicCatCount xSample
        (trainedClasses [0, 1, 1, 0]))[predictLabel
          (trainedClasses [0, 1, 1, 0]) 1]?.isSome = true :=
  claim10_prediction_index_in_bounds [0, 1, 1, 0] 1 pSample titanicCatCount
    xSample (by decide) (by decide) (by decide)

end MLDevOps
